import Mathlib

/-!
Verification of the hierarchical time-aggregation core of the `gears`
repository (`examples/dask-hierarchical-aggregation.ipynb`): the three
transform functions `init_agg`, `coarsen_agg`, `finalize_agg` and the
column-naming utilities `get_cols` and `get_vars_from_flat_cols`.

Modelling choices of the shallow embedding:

* Numeric values are rationals (`ℚ`): the spec's claims are stated
  "exactly under real arithmetic", and every quantity the code computes
  from rational inputs is rational.  Non-finite float results (NaN from
  `0/0`, infinities from `x/0`) are tracked explicitly by the `FloatVal`
  type in the finalizer, which is the only place they can arise on
  lossless inputs.
* Standard deviation: the code computes `std = (sum_sq_diff/(count-1))**0.5`.
  Since the square root of a rational is irrational in general, the
  embedding carries the radicand (`FinalRow.stdSq`); `std` is its square
  root, and `std` is NaN exactly when the radicand is NaN or negative
  (negative radicands cannot arise from lossless inputs).
* Timestamps are natural numbers (seconds since the epoch); a time
  resolution is a positive number of seconds, and `dt.floor` is flooring
  to the nearest multiple of the resolution.
* The grouping key(s) of a row form one value of an arbitrary type `K`
  with decidable equality (one column, a tuple of columns, or `Unit`
  when the grouping set is empty).
* The statistics are computed by the code column-wise and independently
  per variable, so the numeric layer tracks a single variable's value
  per row; the multi-variable column layout is modelled separately by
  the column-naming layer (`init_agg_cols`, `coarsen_agg_cols`, ...),
  where Python strings are modelled as lists of characters (`PyStr`).
* Tables are lists of rows.  `groupby` is modelled by filtering the list
  on the group key; the per-group outputs of the three transforms are
  `Option`-valued functions of the group key, and the table-level
  outputs (`init_agg_table`, `coarsen_agg_table`) enumerate the group
  keys in first-occurrence order (pandas sorts group keys; every claim
  below is either per-group or about an input where the two orders
  coincide).
* The shape/error layer (`coarsen_shape`, `finalize_shape`) models the
  code's "reset index if a required column is missing" fallback and the
  `KeyError` a missing column raises on access, via `Except`.
-/

namespace Gears

/-- A Python string, modelled as its list of characters. -/
abbrev PyStr := List Char

/-- Python `col.split('.')`: split on every dot, keeping empty pieces.
`splitDot s` is never `[]`; a dot-free string is returned whole. -/
def splitDot : PyStr → List PyStr
  | [] => [[]]
  | c :: cs =>
    if c = '.' then [] :: splitDot cs
    else
      match splitDot cs with
      | [] => [[c]]
      | p :: ps => (c :: p) :: ps

/-- Python `'.'.join(pieces)`. -/
def joinDot : List PyStr → PyStr
  | [] => []
  | [p] => p
  | p :: ps => p ++ '.' :: joinDot ps

/-- `'.'.join(col.split('.')[:-1])`: everything before the final dot
component of a flat column name (empty when the name has no dot). -/
def varOf (col : PyStr) : PyStr := joinDot (splitDot col).dropLast

/-- Helper for `pdUnique`: keep the elements not yet seen, in order,
remembering the seen ones. -/
def pdUniqueAux {α : Type _} [DecidableEq α] (seen : List α) : List α → List α
  | [] => []
  | a :: as => if a ∈ seen then pdUniqueAux seen as else a :: pdUniqueAux (a :: seen) as

/-- `pd.unique`: deduplication keeping the first occurrence of each
element, in first-occurrence order. -/
def pdUnique {α : Type _} [DecidableEq α] (l : List α) : List α := pdUniqueAux [] l

/-- `get_vars_from_flat_cols(df, not_vars)`: variable names extracted as
the part of each flat column name before its final dot component,
skipping the `not_vars` columns, deduplicated by `pd.unique`. -/
def get_vars_from_flat_cols (cols : List PyStr) (not_vars : List PyStr) : List PyStr :=
  pdUnique ((cols.filter (fun col => col ∉ not_vars)).map varOf)

/-- The flat column name `f'\x7bx\x7d.\x7bagg_type\x7d'`. -/
def dotted (x agg_type : PyStr) : PyStr := x ++ '.' :: agg_type

/-- `get_cols(variables, agg_type)`: one flat column name per variable. -/
def get_cols (vars : List PyStr) (agg_type : PyStr) : List PyStr :=
  vars.map (fun x => dotted x agg_type)

def countName : PyStr := "count".toList
def sumName : PyStr := "sum".toList
def ssdName : PyStr := "sum_sq_diff".toList
def maxName : PyStr := "max".toList
def minName : PyStr := "min".toList
def meanName : PyStr := "mean".toList
def stdName : PyStr := "std".toList

/-- Column names of the lossless table produced by `init_agg`: the code
flattens `zip(cols('count'), cols('sum'), cols('sum_sq_diff'),
cols('max'), cols('min'))`, i.e. per variable, in variable order, the
five statistics with `max` before `min`. -/
def init_agg_cols (vars : List PyStr) : List PyStr :=
  vars.flatMap (fun v =>
    [dotted v countName, dotted v sumName, dotted v ssdName,
     dotted v maxName, dotted v minName])

/-- Column names of the table produced by `coarsen_agg`: the aggregation
dict is built from `zip(cols('count'), cols('sum'), cols('sum_sq_diff'),
cols('min'), cols('max'))` over the variables extracted from the input
columns, and the output columns follow the dict order: per variable, the
five statistics with `min` before `max`. -/
def coarsen_agg_cols (cols_in : List PyStr) (not_vars : List PyStr) : List PyStr :=
  (get_vars_from_flat_cols cols_in not_vars).flatMap (fun v =>
    [dotted v countName, dotted v sumName, dotted v ssdName,
     dotted v minName, dotted v maxName])

/-- Column names of the final table produced by `finalize_agg`: grouping
keys, time, then per variable `mean`, `std`, `min`, `max`. -/
def finalize_agg_cols (cols_in : List PyStr) (time_col : PyStr)
    (grouping_cols : List PyStr) : List PyStr :=
  grouping_cols ++ [time_col] ++
    (get_vars_from_flat_cols cols_in (grouping_cols ++ [time_col])).flatMap (fun v =>
      [dotted v meanName, dotted v stdName, dotted v minName, dotted v maxName])

/-- The shape of a dataframe: its index level names and column names. -/
structure Table where
  index : List PyStr
  cols : List PyStr
deriving DecidableEq, Repr

/-- `df.reset_index()`: index levels become leading columns. -/
def reset_index (t : Table) : Table := { index := [], cols := t.index ++ t.cols }

/-- Column access `df[needed]`: `KeyError` (carrying the offending name)
as soon as a requested column is absent. -/
def requireCols (present : List PyStr) (needed : List PyStr) : Except PyStr Unit :=
  match needed.find? (fun c => c ∉ present) with
  | some c => Except.error c
  | none => Except.ok ()

/-- The shape-and-error behaviour of `coarsen_agg`: reset the index when
a grouping/time column is missing from the columns, then perform the
code's column accesses in order (time floor, counts, sums, the groupby
keys, sum-of-squared-differences, the min/max aggregation dict), each
raising `KeyError` on an absent column; variables are extracted from the
ORIGINAL input's columns (`df_agg`), as in the code. -/
def coarsen_shape (t : Table) (time_col : PyStr) (grouping_cols : List PyStr) :
    Except PyStr Table :=
  let req := grouping_cols ++ [time_col]
  let t1 := if req.any (fun v => v ∉ t.cols) then reset_index t else t
  let vars := get_vars_from_flat_cols t.cols req
  do
    requireCols t1.cols [time_col]
    requireCols t1.cols (get_cols vars countName)
    requireCols t1.cols (get_cols vars sumName)
    requireCols t1.cols req
    requireCols t1.cols (get_cols vars ssdName)
    requireCols t1.cols (get_cols vars minName ++ get_cols vars maxName)
    return { index := req, cols := coarsen_agg_cols t.cols req }

/-- The shape-and-error behaviour of `finalize_agg`: reset the index
when a grouping/time column is missing, then the code's accesses in
order (counts, sums, sum-of-squared-differences, the grouping/time
columns for the concat, min/max); here the variables are extracted from
the POST-reset columns (the code reassigns `df_agg`). -/
def finalize_shape (t : Table) (time_col : PyStr) (grouping_cols : List PyStr) :
    Except PyStr Table :=
  let req := grouping_cols ++ [time_col]
  let t1 := if req.any (fun v => v ∉ t.cols) then reset_index t else t
  let vars := get_vars_from_flat_cols t1.cols req
  do
    requireCols t1.cols (get_cols vars countName)
    requireCols t1.cols (get_cols vars sumName)
    requireCols t1.cols (get_cols vars ssdName)
    requireCols t1.cols req
    requireCols t1.cols (get_cols vars minName ++ get_cols vars maxName)
    return { index := [], cols := finalize_agg_cols t1.cols time_col grouping_cols }

/-- One raw measurement row: timestamp (seconds), grouping key, and the
value of one numeric variable (already widened to float, modelled
exactly as a rational). -/
structure RawRow (K : Type _) where
  time : ℕ
  key : K
  v : ℚ
deriving DecidableEq, Repr

/-- `timestamp.dt.floor(res)`: round down to a multiple of `res` seconds. -/
def floorTime (res t : ℕ) : ℕ := res * (t / res)

/-- The values of the raw rows that fall into group `(k, b)` at
resolution `res` (the fibers of the code's `groupby`). -/
def groupVals {K : Type _} [DecidableEq K] (raw : List (RawRow K)) (res : ℕ)
    (k : K) (b : ℕ) : List ℚ :=
  (raw.filter (fun x => x.key = k ∧ floorTime res x.time = b)).map (fun x => x.v)

/-- The mean used inside the pandas variance. -/
def pdMean (vs : List ℚ) : ℚ := vs.sum / (vs.length : ℚ)

/-- pandas `var` (sample variance, `ddof=1`): `NaN` — modelled as
`none` — on groups of at most one sample. -/
def sampleVar (vs : List ℚ) : Option ℚ :=
  if vs.length ≤ 1 then none
  else some ((vs.map (fun v => (v - pdMean vs) ^ 2)).sum / ((vs.length : ℚ) - 1))

/-- Merge of optional values by a binary operation (`none` is neutral). -/
def obin (op : ℚ → ℚ → ℚ) : Option ℚ → Option ℚ → Option ℚ
  | none, y => y
  | some a, none => some a
  | some a, some b => some (op a b)

/-- Fold of a binary operation over a list, `none` on the empty list. -/
def ofold (op : ℚ → ℚ → ℚ) : List ℚ → Option ℚ
  | [] => none
  | v :: vs => obin op (some v) (ofold op vs)

/-- pandas `min` aggregate of a column. -/
def listMin (vs : List ℚ) : Option ℚ := ofold min vs

/-- pandas `max` aggregate of a column. -/
def listMax (vs : List ℚ) : Option ℚ := ofold max vs

/-- One row of a lossless aggregate table: group key, bucket start time,
and the five sufficient statistics of one variable. -/
structure AggRow (K : Type _) where
  key : K
  time : ℕ
  count : ℕ
  sum : ℚ
  sum_sq_diff : ℚ
  vmin : ℚ
  vmax : ℚ
deriving DecidableEq, Repr

/-- The lossless row `init_agg` produces for the group at `kb`: count,
sum, `sum_sq_diff = var.fillna(0) * (count - 1)`, max, min of the
group's raw values.  Only used on nonempty groups (`groupby` emits no
empty groups). -/
def mkInitRow {K : Type _} [DecidableEq K] (raw : List (RawRow K)) (res : ℕ)
    (kb : K × ℕ) : AggRow K :=
  let vs := groupVals raw res kb.1 kb.2
  { key := kb.1, time := kb.2,
    count := vs.length,
    sum := vs.sum,
    sum_sq_diff := (sampleVar vs).getD 0 * ((vs.length : ℚ) - 1),
    vmin := (listMin vs).getD 0,
    vmax := (listMax vs).getD 0 }

/-- `init_agg`, per group: the lossless aggregate row of group `(k, b)`
at resolution `res`, or `none` when no raw row falls into that group. -/
def init_agg {K : Type _} [DecidableEq K] (raw : List (RawRow K)) (res : ℕ)
    (k : K) (b : ℕ) : Option (AggRow K) :=
  if groupVals raw res k b = [] then none else some (mkInitRow raw res (k, b))

/-- The group key `(key, floored time)` of a raw row. -/
def groupKey {K : Type _} (res : ℕ) (x : RawRow K) : K × ℕ :=
  (x.key, floorTime res x.time)

/-- `init_agg`, whole table: one lossless row per distinct
`(key, floored time)` pair present in the input. -/
def init_agg_table {K : Type _} [DecidableEq K] (raw : List (RawRow K)) (res : ℕ) :
    List (AggRow K) :=
  (pdUnique (raw.map (groupKey res))).map (mkInitRow raw res)

/-- The rows of a lossless table that `coarsen_agg` merges into the
coarse bucket `(k, b)` at resolution `res` (re-flooring each row's
existing bucket start). -/
def aggGroup {K : Type _} [DecidableEq K] (tbl : List (AggRow K)) (res : ℕ)
    (k : K) (b : ℕ) : List (AggRow K) :=
  tbl.filter (fun y => y.key = k ∧ floorTime res y.time = b)

/-- The merged coarse row `coarsen_agg` builds from a group of fine
rows: broadcast coarse count/sum, per-row correction
`count * (sum/count - coarse_mean)^2` added to `sum_sq_diff`, then sum
of counts, sums and corrected sums of squared differences, min of mins,
max of maxes. -/
def coarsenOf {K : Type _} (grp : List (AggRow K)) (k : K) (b : ℕ) : AggRow K :=
  let coarseCount : ℚ := (grp.map (fun y => (y.count : ℚ))).sum
  let coarseSum : ℚ := (grp.map (fun y => y.sum)).sum
  let coarseMean : ℚ := coarseSum / coarseCount
  { key := k, time := b,
    count := (grp.map (fun y => y.count)).sum,
    sum := coarseSum,
    sum_sq_diff := (grp.map (fun y =>
      y.sum_sq_diff + (y.count : ℚ) * (y.sum / (y.count : ℚ) - coarseMean) ^ 2)).sum,
    vmin := (listMin (grp.map (fun y => y.vmin))).getD 0,
    vmax := (listMax (grp.map (fun y => y.vmax))).getD 0 }

/-- `coarsen_agg`, per coarse group: the merged row of coarse bucket
`(k, b)` at the new resolution `res`, or `none` when no fine row lands
in it. -/
def coarsen_agg {K : Type _} [DecidableEq K] (tbl : List (AggRow K)) (res : ℕ)
    (k : K) (b : ℕ) : Option (AggRow K) :=
  if aggGroup tbl res k b = [] then none
  else some (coarsenOf (aggGroup tbl res k b) k b)

/-- The coarse group key `(key, re-floored time)` of a lossless row. -/
def aggKey {K : Type _} (res : ℕ) (y : AggRow K) : K × ℕ :=
  (y.key, floorTime res y.time)

/-- `coarsen_agg`, whole table: one merged row per distinct coarse
group present in the input. -/
def coarsen_agg_table {K : Type _} [DecidableEq K] (tbl : List (AggRow K)) (res : ℕ) :
    List (AggRow K) :=
  (pdUnique (tbl.map (aggKey res))).map (fun kb => coarsenOf (aggGroup tbl res kb.1 kb.2) kb.1 kb.2)

/-- A float result that can be non-finite: NaN, `+inf`, `-inf`, or a
finite value (exact, as a rational). -/
inductive FloatVal where
  | nan : FloatVal
  | inf : FloatVal
  | ninf : FloatVal
  | val : ℚ → FloatVal
deriving DecidableEq, Repr

/-- IEEE float division on exact operands: `0/0` is NaN, `x/0` is a
signed infinity, otherwise exact. -/
def fldiv (a b : ℚ) : FloatVal :=
  if b = 0 then
    (if a = 0 then FloatVal.nan else if 0 < a then FloatVal.inf else FloatVal.ninf)
  else FloatVal.val (a / b)

/-- One row of a final aggregate table.  `stdSq` is the radicand of the
standard deviation: the code's `std` equals `stdSq ** 0.5`, which is NaN
exactly when `stdSq` is NaN or a negative value. -/
structure FinalRow (K : Type _) where
  key : K
  time : ℕ
  mean : FloatVal
  stdSq : FloatVal
  vmin : ℚ
  vmax : ℚ
deriving DecidableEq, Repr

/-- `finalize_agg`, per row: `mean = sum / count`,
`stdSq = sum_sq_diff / (count - 1)` (so `std` is its square root), min
and max passed through. -/
def finalizeRow {K : Type _} (a : AggRow K) : FinalRow K :=
  { key := a.key, time := a.time,
    mean := fldiv a.sum (a.count : ℚ),
    stdSq := fldiv a.sum_sq_diff ((a.count : ℚ) - 1),
    vmin := a.vmin, vmax := a.vmax }

/-- `finalize_agg`, whole table: row-wise finalization. -/
def finalize_agg {K : Type _} (tbl : List (AggRow K)) : List (FinalRow K) :=
  tbl.map finalizeRow

/-- Spec-side definition (for the round-trip claims): the naive mean of
the raw values of a group. -/
def naiveMean (vs : List ℚ) : ℚ := vs.sum / (vs.length : ℚ)

/-- Spec-side definition: the naive sum of squared differences of a
group's raw values from the group's own mean. -/
def naiveSumSqDiff (vs : List ℚ) : ℚ :=
  (vs.map (fun v => (v - naiveMean vs) ^ 2)).sum

/-! ### Time flooring -/

theorem floorTime_idem (res t : ℕ) : floorTime res (floorTime res t) = floorTime res t := by
  unfold floorTime
  rcases Nat.eq_zero_or_pos res with h | h
  · simp [h]
  · rw [Nat.mul_div_cancel_left _ h]

theorem floorTime_comp (r1 r2 t : ℕ) (h : r1 ∣ r2) :
    floorTime r2 (floorTime r1 t) = floorTime r2 t := by
  rcases h with ⟨m, rfl⟩
  rcases Nat.eq_zero_or_pos r1 with h1 | h1
  · simp [h1, floorTime]
  · rcases Nat.eq_zero_or_pos m with h2 | h2
    · simp [h2, floorTime]
    · unfold floorTime
      rw [Nat.mul_div_mul_left _ _ h1, Nat.div_div_eq_div_mul]

/-! ### `pd.unique` -/

theorem mem_pdUniqueAux {α : Type _} [DecidableEq α] (l : List α) :
    ∀ (seen : List α) (a : α), a ∈ pdUniqueAux seen l ↔ a ∈ l ∧ a ∉ seen := by
  induction l with
  | nil =>
    intro seen a
    simp [pdUniqueAux]
  | cons b bs ih =>
    intro seen a
    by_cases hb : b ∈ seen
    · rw [pdUniqueAux, if_pos hb, ih seen a, List.mem_cons]
      constructor
      · rintro ⟨h1, h2⟩
        exact ⟨Or.inr h1, h2⟩
      · rintro ⟨(rfl | h1), h2⟩
        · exact absurd hb h2
        · exact ⟨h1, h2⟩
    · rw [pdUniqueAux, if_neg hb, List.mem_cons, ih (b :: seen) a, List.mem_cons,
        List.mem_cons]
      constructor
      · rintro (rfl | ⟨h1, h2⟩)
        · exact ⟨Or.inl rfl, hb⟩
        · exact ⟨Or.inr h1, fun hc => h2 (Or.inr hc)⟩
      · rintro ⟨(rfl | h1), h2⟩
        · exact Or.inl rfl
        · rcases eq_or_ne a b with rfl | hne
          · exact Or.inl rfl
          · exact Or.inr ⟨h1, fun hc => hc.elim hne h2⟩

theorem pdUniqueAux_nodup {α : Type _} [DecidableEq α] (l : List α) :
    ∀ seen : List α, (pdUniqueAux seen l).Nodup := by
  induction l with
  | nil =>
    intro seen
    simp [pdUniqueAux]
  | cons b bs ih =>
    intro seen
    by_cases hb : b ∈ seen
    · rw [pdUniqueAux, if_pos hb]
      exact ih seen
    · rw [pdUniqueAux, if_neg hb]
      refine List.nodup_cons.mpr ⟨fun hmem => ?_, ih (b :: seen)⟩
      exact ((mem_pdUniqueAux bs (b :: seen) b).mp hmem).2 (List.mem_cons_self b seen)

theorem pdUnique_nodup {α : Type _} [DecidableEq α] (l : List α) : (pdUnique l).Nodup :=
  pdUniqueAux_nodup l []

theorem mem_pdUnique {α : Type _} [DecidableEq α] {l : List α} {a : α} :
    a ∈ pdUnique l ↔ a ∈ l := by
  rw [pdUnique, mem_pdUniqueAux]
  simp

theorem nodup_filter_eq {α : Type _} [DecidableEq α] (l : List α) (hl : l.Nodup) (a : α) :
    l.filter (fun x => x = a) = if a ∈ l then [a] else [] := by
  induction l with
  | nil => simp
  | cons b bs ih =>
    obtain ⟨hb, hbs⟩ := List.nodup_cons.mp hl
    rcases eq_or_ne b a with rfl | hba
    · simp [List.filter_cons, ih hbs, hb]
    · have hab : a ≠ b := hba.symm
      simp [List.filter_cons, hba, ih hbs, hab]

/-! ### Folds of commutative-associative operations -/

theorem obin_none_left (op : ℚ → ℚ → ℚ) (y : Option ℚ) : obin op none y = y := rfl

theorem obin_assoc (op : ℚ → ℚ → ℚ)
    (hassoc : ∀ a b c, op (op a b) c = op a (op b c)) (x y z : Option ℚ) :
    obin op (obin op x y) z = obin op x (obin op y z) := by
  cases x <;> cases y <;> cases z <;> simp [obin, hassoc]

theorem ofold_append (op : ℚ → ℚ → ℚ)
    (hassoc : ∀ a b c, op (op a b) c = op a (op b c)) (l1 l2 : List ℚ) :
    ofold op (l1 ++ l2) = obin op (ofold op l1) (ofold op l2) := by
  induction l1 with
  | nil => simp [ofold, obin]
  | cons v vs ih => simp [ofold, ih, obin_assoc op hassoc]

theorem ofold_isSome (op : ℚ → ℚ → ℚ) (l : List ℚ) (h : l ≠ []) :
    (ofold op l).isSome := by
  match l with
  | v :: vs =>
    cases hvs : ofold op vs <;> simp [ofold, obin, hvs]

theorem ofold_perm (op : ℚ → ℚ → ℚ)
    (hassoc : ∀ a b c, op (op a b) c = op a (op b c))
    (hcomm : ∀ a b, op a b = op b a)
    {l1 l2 : List ℚ} (h : l1.Perm l2) : ofold op l1 = ofold op l2 := by
  induction h with
  | nil => rfl
  | cons x _ ih => simp [ofold, ih]
  | swap x y l =>
    show obin op (some y) (obin op (some x) (ofold op l)) =
      obin op (some x) (obin op (some y) (ofold op l))
    cases ofold op l with
    | none => simp [obin, hcomm y x]
    | some c =>
      simp only [obin]
      rw [← hassoc, hcomm y x, hassoc]
  | trans _ _ ih1 ih2 => exact ih1.trans ih2

theorem ofold_map_getD (op : ℚ → ℚ → ℚ)
    (hassoc : ∀ a b c, op (op a b) c = op a (op b c))
    {β : Type _} (ks : List β) (g : β → List ℚ) (hne : ∀ b ∈ ks, g b ≠ []) :
    ofold op (ks.map (fun b => (ofold op (g b)).getD 0)) = ofold op (ks.flatMap g) := by
  induction ks with
  | nil => rfl
  | cons b bs ih =>
    obtain ⟨m, hm⟩ := Option.isSome_iff_exists.mp
      (ofold_isSome op (g b) (hne b (List.mem_cons_self b bs)))
    rw [List.map_cons, List.flatMap_cons, ofold_append op hassoc]
    show obin op (some ((ofold op (g b)).getD 0)) _ = _
    rw [hm, ih (fun b' hb' => hne b' (List.mem_cons_of_mem b hb'))]
    rfl

theorem sum_flatMap_map {α β M : Type _} [AddCommMonoid M]
    (ks : List β) (g : β → List α) (h : α → M) :
    ((ks.flatMap g).map h).sum = (ks.map (fun b => ((g b).map h).sum)).sum := by
  induction ks with
  | nil => rfl
  | cons b bs ih => simp [List.flatMap_cons, ih]

/-! ### Partition of a list into the fibers of a key function -/

theorem fibers_perm {α β : Type _} [DecidableEq β] :
    ∀ (ks : List β) (l : List α) (f : α → β), ks.Nodup → (∀ x ∈ l, f x ∈ ks) →
      (ks.flatMap (fun b => l.filter (fun x => f x = b))).Perm l := by
  intro ks
  induction ks with
  | nil =>
    intro l f _ hcov
    have : l = [] := List.eq_nil_iff_forall_not_mem.mpr (fun x hx => by simpa using hcov x hx)
    simp [this]
  | cons b bs ih =>
    intro l f hnd hcov
    obtain ⟨hb, hbs⟩ := List.nodup_cons.mp hnd
    rw [List.flatMap_cons]
    have hfib : bs.flatMap (fun b' => l.filter (fun x => f x = b')) =
        bs.flatMap (fun b' => (l.filter (fun x => ¬ f x = b)).filter (fun x => f x = b')) := by
      refine List.flatMap_congr (fun b' hb' => ?_)
      rw [List.filter_filter]
      refine (List.filter_congr (fun x _ => ?_)).symm
      rcases eq_or_ne (f x) b' with hfx | hfx
      · have hbb' : b' ≠ b := fun hc => hb (hc ▸ hb')
        simp [hfx, hbb']
      · simp [hfx]
    rw [hfib]
    have hcov' : ∀ x ∈ l.filter (fun x => ¬ f x = b), f x ∈ bs := by
      intro x hx
      rw [List.mem_filter] at hx
      have h1 := hcov x hx.1
      have h2 : ¬ f x = b := by simpa using hx.2
      rcases List.mem_cons.mp h1 with hc | hc
      · exact absurd hc h2
      · exact hc
    have hstep1 := (ih (l.filter (fun x => ¬ f x = b)) f hbs hcov').append_left
      (l.filter (fun x => f x = b))
    have hstep2 : (l.filter (fun x => f x = b) ++ l.filter (fun x => ¬ f x = b)).Perm l := by
      have h2 := List.filter_append_perm (fun x => decide (f x = b)) l
      have h3 : (fun x => decide (¬ f x = b)) = (fun x => !decide (f x = b)) := by
        funext x
        simp [decide_not]
      rw [h3]
      exact h2
    exact hstep1.trans hstep2

theorem fibers_filter_perm {α β : Type _} [DecidableEq β]
    (l : List α) (f : α → β) (P : β → Bool) :
    (((pdUnique (l.map f)).filter P).flatMap
        (fun b => l.filter (fun x => f x = b))).Perm
      (l.filter (fun x => P (f x))) := by
  have hk : ∀ b ∈ (pdUnique (l.map f)).filter P,
      l.filter (fun x => f x = b) =
        (l.filter (fun x => P (f x))).filter (fun x => f x = b) := by
    intro b hbmem
    have hPb : P b = true := (List.mem_filter.mp hbmem).2
    rw [List.filter_filter]
    refine List.filter_congr (fun x _ => ?_)
    rcases eq_or_ne (f x) b with hfx | hfx
    · simp [hfx, hPb]
    · simp [hfx]
  rw [List.flatMap_congr hk]
  refine fibers_perm _ _ f ((pdUnique_nodup _).filter P) ?_
  intro x hx
  rw [List.mem_filter] at hx
  rw [List.mem_filter, mem_pdUnique]
  exact ⟨List.mem_map_of_mem f hx.1, hx.2⟩

/-! ### The parallel-axis (Chan) identities, exact over `ℚ` -/

theorem sumsq_expand (vs : List ℚ) (c : ℚ) :
    (vs.map (fun v => (v - c) ^ 2)).sum =
      (vs.map (fun v => v ^ 2)).sum - 2 * c * vs.sum + (vs.length : ℚ) * c ^ 2 := by
  induction vs with
  | nil => simp
  | cons v vs ih =>
    simp only [List.map_cons, List.sum_cons, List.length_cons, ih]
    push_cast
    ring

theorem naive_parallel_axis (vs : List ℚ) (c : ℚ) (h : vs ≠ []) :
    (vs.map (fun v => (v - c) ^ 2)).sum =
      naiveSumSqDiff vs + (vs.length : ℚ) * (naiveMean vs - c) ^ 2 := by
  have hn : (vs.length : ℚ) ≠ 0 := Nat.cast_ne_zero.mpr (List.length_pos.mpr h).ne'
  rw [naiveSumSqDiff, sumsq_expand, sumsq_expand]
  have hmean : naiveMean vs * (vs.length : ℚ) = vs.sum := by
    rw [naiveMean]
    field_simp
  linear_combination (2 * (c - naiveMean vs)) * hmean

theorem wsumsq_expand {K : Type _} (l : List (AggRow K)) (c : ℚ)
    (hc : ∀ y ∈ l, 0 < y.count) :
    (l.map (fun y => (y.count : ℚ) * (y.sum / (y.count : ℚ) - c) ^ 2)).sum =
      (l.map (fun y => y.sum ^ 2 / (y.count : ℚ))).sum
        - 2 * c * (l.map (fun y => y.sum)).sum
        + c ^ 2 * (l.map (fun y => (y.count : ℚ))).sum := by
  induction l with
  | nil => simp
  | cons y ys ih =>
    have hy : ((y.count : ℚ)) ≠ 0 :=
      Nat.cast_ne_zero.mpr (hc y (List.mem_cons_self y ys)).ne'
    have hhead : (y.count : ℚ) * (y.sum / (y.count : ℚ) - c) ^ 2 =
        y.sum ^ 2 / (y.count : ℚ) - 2 * c * y.sum + c ^ 2 * (y.count : ℚ) := by
      field_simp
      ring
    simp only [List.map_cons, List.sum_cons,
      ih (fun z hz => hc z (List.mem_cons_of_mem y hz)), hhead]
    ring

theorem weighted_parallel_axis {K : Type _} (l : List (AggRow K)) (c N S : ℚ)
    (hc : ∀ y ∈ l, 0 < y.count)
    (hN : N = (l.map (fun y => (y.count : ℚ))).sum)
    (hS : S = (l.map (fun y => y.sum)).sum) :
    (l.map (fun y => (y.count : ℚ) * (y.sum / (y.count : ℚ) - c) ^ 2)).sum =
      (l.map (fun y => (y.count : ℚ) * (y.sum / (y.count : ℚ) - S / N) ^ 2)).sum
        + N * (S / N - c) ^ 2 := by
  rcases eq_or_ne l [] with rfl | hl
  · simp at hN hS
    simp [hN, hS]
  · have hN0 : N ≠ 0 := by
      rw [hN]
      refine (List.sum_pos _ (fun x hx => ?_) ?_).ne'
      · obtain ⟨y, hy, rfl⟩ := List.mem_map.mp hx
        exact_mod_cast hc y hy
      · simpa using hl
    have hm : (S / N) * N = S := div_mul_cancel₀ S hN0
    rw [wsumsq_expand l c hc, wsumsq_expand l (S / N) hc, ← hN, ← hS]
    linear_combination (2 * (c - S / N)) * hm

/-! ### `init_agg` groups -/

theorem groupVals_append {K : Type _} [DecidableEq K] (r1 r2 : List (RawRow K))
    (res : ℕ) (k : K) (b : ℕ) :
    groupVals (r1 ++ r2) res k b = groupVals r1 res k b ++ groupVals r2 res k b := by
  simp [groupVals, List.filter_append]

theorem init_ssd_eq_naive (vs : List ℚ) (h : vs ≠ []) :
    (sampleVar vs).getD 0 * ((vs.length : ℚ) - 1) = naiveSumSqDiff vs := by
  match vs, h with
  | [v], _ =>
    simp [sampleVar, naiveSumSqDiff, naiveMean]
  | v :: w :: vs, _ =>
    have hlen : ¬ (v :: w :: vs).length ≤ 1 := by
      simp [List.length_cons]
    have hne : (((v :: w :: vs).length : ℚ)) - 1 ≠ 0 := by
      have h2 : (2 : ℚ) ≤ ((v :: w :: vs).length : ℚ) := by
        exact_mod_cast Nat.succ_le_succ (Nat.succ_le_succ (Nat.zero_le _))
      linarith
    rw [sampleVar, if_neg hlen, Option.getD_some, div_mul_cancel₀ _ hne]
    rfl

theorem mem_initKeys_iff {K : Type _} [DecidableEq K] (raw : List (RawRow K))
    (res : ℕ) (k : K) (b : ℕ) :
    (k, b) ∈ pdUnique (raw.map (groupKey res)) ↔ groupVals raw res k b ≠ [] := by
  rw [mem_pdUnique, List.mem_map]
  constructor
  · rintro ⟨x, hx, hkey⟩
    have h1 : x.key = k := congrArg Prod.fst hkey
    have h2 : floorTime res x.time = b := congrArg Prod.snd hkey
    refine List.ne_nil_of_mem (a := x.v) ?_
    unfold groupVals
    refine List.mem_map.mpr ⟨x, List.mem_filter.mpr ⟨hx, ?_⟩, rfl⟩
    simp [h1, h2]
  · intro h
    have hf : raw.filter (fun x => x.key = k ∧ floorTime res x.time = b) ≠ [] := by
      intro hc
      apply h
      unfold groupVals
      rw [hc]
      rfl
    obtain ⟨x, hx⟩ := List.exists_mem_of_ne_nil _ hf
    obtain ⟨hx1, hx2⟩ := List.mem_filter.mp hx
    refine ⟨x, hx1, ?_⟩
    simp only [decide_eq_true_eq] at hx2
    simp [groupKey, hx2.1, hx2.2]

theorem aggGroup_init_table {K : Type _} [DecidableEq K] (raw : List (RawRow K))
    (res : ℕ) (k : K) (b : ℕ) :
    aggGroup (init_agg_table raw res) res k b =
      if groupVals raw res k b = [] then [] else [mkInitRow raw res (k, b)] := by
  unfold aggGroup init_agg_table
  rw [List.filter_map]
  have hcongr : (pdUnique (raw.map (groupKey res))).filter
      ((fun y => decide (y.key = k ∧ floorTime res y.time = b)) ∘ mkInitRow raw res) =
      (pdUnique (raw.map (groupKey res))).filter (fun kb => kb = (k, b)) := by
    refine List.filter_congr (fun kb hkb => ?_)
    rw [mem_pdUnique, List.mem_map] at hkb
    obtain ⟨x, _, rfl⟩ := hkb
    simp only [Function.comp_apply, decide_eq_decide]
    simp [mkInitRow, groupKey, floorTime_idem, Prod.ext_iff]
  rw [hcongr, nodup_filter_eq _ (pdUnique_nodup _) (k, b)]
  by_cases hmem : (k, b) ∈ pdUnique (raw.map (groupKey res))
  · rw [if_pos hmem, if_neg ((mem_initKeys_iff raw res k b).mp hmem)]
    rfl
  · rw [if_neg hmem, if_pos]
    · rfl
    · by_contra hne
      exact hmem ((mem_initKeys_iff raw res k b).mpr hne)

theorem aggGroup_coarsen_table {K : Type _} [DecidableEq K] (tbl : List (AggRow K))
    (r1 r2 : ℕ) (k : K) (B : ℕ) :
    aggGroup (coarsen_agg_table tbl r1) r2 k B =
      ((pdUnique (tbl.map (aggKey r1))).filter
          (fun kb => kb.1 = k ∧ floorTime r2 kb.2 = B)).map
        (fun kb => coarsenOf (aggGroup tbl r1 kb.1 kb.2) kb.1 kb.2) := by
  unfold aggGroup coarsen_agg_table
  rw [List.filter_map]
  refine congrArg (List.map _) ?_
  refine List.filter_congr (fun kb _ => ?_)
  simp only [Function.comp_apply, decide_eq_decide]
  simp [coarsenOf]

theorem aggGroup_append {K : Type _} [DecidableEq K] (t1 t2 : List (AggRow K))
    (res : ℕ) (k : K) (b : ℕ) :
    aggGroup (t1 ++ t2) res k b = aggGroup t1 res k b ++ aggGroup t2 res k b := by
  unfold aggGroup
  exact List.filter_append _ _

theorem coarsenOf_single {K : Type _} (row : AggRow K) (k : K) (b : ℕ) :
    coarsenOf [row] k b = { row with key := k, time := b } := by
  unfold coarsenOf
  simp [listMin, listMax, ofold, obin]

theorem mkInitRow_congr {K : Type _} [DecidableEq K] {raw raw' : List (RawRow K)}
    {res : ℕ} (kb : K × ℕ)
    (h : groupVals raw res kb.1 kb.2 = groupVals raw' res kb.1 kb.2) :
    mkInitRow raw res kb = mkInitRow raw' res kb := by
  unfold mkInitRow
  rw [h]

theorem listMin_append (l1 l2 : List ℚ) :
    listMin (l1 ++ l2) = obin min (listMin l1) (listMin l2) :=
  ofold_append min (fun a b c => min_assoc a b c) l1 l2

theorem listMax_append (l1 l2 : List ℚ) :
    listMax (l1 ++ l2) = obin max (listMax l1) (listMax l2) :=
  ofold_append max (fun a b c => max_assoc a b c) l1 l2

theorem mkInitRow_key {K : Type _} [DecidableEq K] (raw : List (RawRow K)) (res : ℕ)
    (kb : K × ℕ) : (mkInitRow raw res kb).key = kb.1 := rfl

theorem mkInitRow_time {K : Type _} [DecidableEq K] (raw : List (RawRow K)) (res : ℕ)
    (kb : K × ℕ) : (mkInitRow raw res kb).time = kb.2 := rfl

theorem mkInitRow_count {K : Type _} [DecidableEq K] (raw : List (RawRow K)) (res : ℕ)
    (kb : K × ℕ) : (mkInitRow raw res kb).count = (groupVals raw res kb.1 kb.2).length := rfl

theorem mkInitRow_sum {K : Type _} [DecidableEq K] (raw : List (RawRow K)) (res : ℕ)
    (kb : K × ℕ) : (mkInitRow raw res kb).sum = (groupVals raw res kb.1 kb.2).sum := rfl

theorem mkInitRow_ssd {K : Type _} [DecidableEq K] (raw : List (RawRow K)) (res : ℕ)
    (kb : K × ℕ) : (mkInitRow raw res kb).sum_sq_diff =
      (sampleVar (groupVals raw res kb.1 kb.2)).getD 0 *
        (((groupVals raw res kb.1 kb.2).length : ℚ) - 1) := rfl

theorem mkInitRow_vmin {K : Type _} [DecidableEq K] (raw : List (RawRow K)) (res : ℕ)
    (kb : K × ℕ) : (mkInitRow raw res kb).vmin =
      (listMin (groupVals raw res kb.1 kb.2)).getD 0 := rfl

theorem mkInitRow_vmax {K : Type _} [DecidableEq K] (raw : List (RawRow K)) (res : ℕ)
    (kb : K × ℕ) : (mkInitRow raw res kb).vmax =
      (listMax (groupVals raw res kb.1 kb.2)).getD 0 := rfl

theorem coarsenOf_key {K : Type _} (grp : List (AggRow K)) (k : K) (b : ℕ) :
    (coarsenOf grp k b).key = k := rfl

theorem coarsenOf_time {K : Type _} (grp : List (AggRow K)) (k : K) (b : ℕ) :
    (coarsenOf grp k b).time = b := rfl

theorem coarsenOf_count {K : Type _} (grp : List (AggRow K)) (k : K) (b : ℕ) :
    (coarsenOf grp k b).count = (grp.map (fun y => y.count)).sum := rfl

theorem coarsenOf_sum {K : Type _} (grp : List (AggRow K)) (k : K) (b : ℕ) :
    (coarsenOf grp k b).sum = (grp.map (fun y => y.sum)).sum := rfl

theorem coarsenOf_ssd {K : Type _} (grp : List (AggRow K)) (k : K) (b : ℕ) :
    (coarsenOf grp k b).sum_sq_diff =
      (grp.map (fun y => y.sum_sq_diff + (y.count : ℚ) *
        (y.sum / (y.count : ℚ) -
          (grp.map (fun z => z.sum)).sum / (grp.map (fun z => (z.count : ℚ))).sum) ^ 2)).sum :=
  rfl

theorem coarsenOf_vmin {K : Type _} (grp : List (AggRow K)) (k : K) (b : ℕ) :
    (coarsenOf grp k b).vmin = (listMin (grp.map (fun y => y.vmin))).getD 0 := rfl

theorem coarsenOf_vmax {K : Type _} (grp : List (AggRow K)) (k : K) (b : ℕ) :
    (coarsenOf grp k b).vmax = (listMax (grp.map (fun y => y.vmax))).getD 0 := rfl

theorem aggRow_eq_of_fields {K : Type _} {a b : AggRow K} (h1 : a.key = b.key)
    (h2 : a.time = b.time) (h3 : a.count = b.count) (h4 : a.sum = b.sum)
    (h5 : a.sum_sq_diff = b.sum_sq_diff) (h6 : a.vmin = b.vmin) (h7 : a.vmax = b.vmax) :
    a = b := by
  cases a
  cases b
  simp only [AggRow.mk.injEq]
  exact ⟨h1, h2, h3, h4, h5, h6, h7⟩

theorem naive_ssd_union (vs1 vs2 : List ℚ) (h1 : vs1 ≠ []) (h2 : vs2 ≠ []) :
    naiveSumSqDiff (vs1 ++ vs2) =
      naiveSumSqDiff vs1 + (vs1.length : ℚ) *
        (naiveMean vs1 - (vs1.sum + vs2.sum) / ((vs1.length : ℚ) + (vs2.length : ℚ))) ^ 2 +
      (naiveSumSqDiff vs2 + (vs2.length : ℚ) *
        (naiveMean vs2 - (vs1.sum + vs2.sum) / ((vs1.length : ℚ) + (vs2.length : ℚ))) ^ 2) := by
  have hU : naiveMean (vs1 ++ vs2) =
      (vs1.sum + vs2.sum) / ((vs1.length : ℚ) + (vs2.length : ℚ)) := by
    rw [naiveMean, List.sum_append, List.length_append]
    push_cast
    ring_nf
  have hunf : naiveSumSqDiff (vs1 ++ vs2) =
      ((vs1 ++ vs2).map (fun v => (v - naiveMean (vs1 ++ vs2)) ^ 2)).sum := rfl
  rw [hunf, hU, List.map_append, List.sum_append,
    naive_parallel_axis _ _ h1, naive_parallel_axis _ _ h2]

theorem coarsenOf_pair_init {K : Type _} [DecidableEq K] (raw1 raw2 : List (RawRow K))
    (res : ℕ) (k : K) (b : ℕ)
    (h1 : groupVals raw1 res k b ≠ []) (h2 : groupVals raw2 res k b ≠ []) :
    coarsenOf [mkInitRow raw1 res (k, b), mkInitRow raw2 res (k, b)] k b =
      mkInitRow (raw1 ++ raw2) res (k, b) := by
  have hboth : groupVals raw1 res k b ++ groupVals raw2 res k b ≠ [] := by
    intro hc
    exact h1 (List.append_eq_nil.mp hc).1
  have hunion : groupVals (raw1 ++ raw2) res k b =
      groupVals raw1 res k b ++ groupVals raw2 res k b := groupVals_append raw1 raw2 res k b
  obtain ⟨m1, hm1⟩ := Option.isSome_iff_exists.mp (ofold_isSome min _ h1)
  obtain ⟨m2, hm2⟩ := Option.isSome_iff_exists.mp (ofold_isSome min _ h2)
  obtain ⟨M1, hM1⟩ := Option.isSome_iff_exists.mp (ofold_isSome max _ h1)
  obtain ⟨M2, hM2⟩ := Option.isSome_iff_exists.mp (ofold_isSome max _ h2)
  refine aggRow_eq_of_fields rfl rfl ?_ ?_ ?_ ?_ ?_
  · simp [coarsenOf_count, mkInitRow_count, hunion]
  · simp [coarsenOf_sum, mkInitRow_sum, hunion]
  · -- the Chan correction on the two sub-buckets equals the naive sum of
    -- squared differences of the union of the two groups
    simp only [coarsenOf_ssd, List.map_cons, List.map_nil, List.sum_cons, List.sum_nil,
      add_zero, mkInitRow_count, mkInitRow_sum, mkInitRow_ssd, hunion]
    rw [init_ssd_eq_naive _ h1, init_ssd_eq_naive _ h2, init_ssd_eq_naive _ hboth,
      naive_ssd_union _ _ h1 h2]
    simp only [naiveMean]
  · simp only [coarsenOf_vmin, List.map_cons, List.map_nil, mkInitRow_vmin, hunion,
      listMin_append, listMin, hm1, hm2, Option.getD_some, ofold, obin]
    rw [ofold_append min (fun a b c => min_assoc a b c), hm1, hm2]
    rfl
  · simp only [coarsenOf_vmax, List.map_cons, List.map_nil, mkInitRow_vmax, hunion,
      listMax_append, listMax, hM1, hM2, Option.getD_some, ofold, obin]
    rw [ofold_append max (fun a b c => max_assoc a b c), hM1, hM2]
    rfl

theorem coarsenOf_single_init {K : Type _} [DecidableEq K] (raw : List (RawRow K))
    (res : ℕ) (k : K) (b : ℕ) :
    coarsenOf [mkInitRow raw res (k, b)] k b = mkInitRow raw res (k, b) := by
  rw [coarsenOf_single]
  exact aggRow_eq_of_fields rfl rfl rfl rfl rfl rfl rfl

theorem finalRow_eq_of_fields {K : Type _} {a b : FinalRow K} (h1 : a.key = b.key)
    (h2 : a.time = b.time) (h3 : a.mean = b.mean) (h4 : a.stdSq = b.stdSq)
    (h5 : a.vmin = b.vmin) (h6 : a.vmax = b.vmax) : a = b := by
  cases a
  cases b
  simp only [FinalRow.mk.injEq]
  exact ⟨h1, h2, h3, h4, h5, h6⟩

theorem fldiv_of_ne {a b : ℚ} (hb : b ≠ 0) : fldiv a b = FloatVal.val (a / b) := by
  rw [fldiv, if_neg hb]

theorem sum_map_add {α : Type _} (l : List α) (f g : α → ℚ) :
    (l.map (fun y => f y + g y)).sum = (l.map f).sum + (l.map g).sum := by
  induction l with
  | nil => simp
  | cons y ys ih =>
    simp only [List.map_cons, List.sum_cons, ih]
    ring

/-- C1: finalizing the lossless aggregate that `init_agg` builds for any
nonempty group reproduces the statistics computed directly and naively
over that group's raw values: the naive mean, the Bessel-corrected
sample variance (the radicand of the standard deviation; NaN for a
single-sample group, where the naive computation is `0/0`), and the
naive min and max — exactly, in rational arithmetic. -/
theorem C1_finalize_roundtrip {K : Type _} [DecidableEq K] (raw : List (RawRow K))
    (res : ℕ) (k : K) (b : ℕ) (h : groupVals raw res k b ≠ []) :
    (init_agg raw res k b).map finalizeRow =
      some { key := k, time := b,
             mean := FloatVal.val (naiveMean (groupVals raw res k b)),
             stdSq := if (groupVals raw res k b).length = 1 then FloatVal.nan
               else FloatVal.val (naiveSumSqDiff (groupVals raw res k b) /
                 (((groupVals raw res k b).length : ℚ) - 1)),
             vmin := (listMin (groupVals raw res k b)).getD 0,
             vmax := (listMax (groupVals raw res k b)).getD 0 } := by
  have hn : ((groupVals raw res k b).length : ℚ) ≠ 0 :=
    Nat.cast_ne_zero.mpr (List.length_pos.mpr h).ne'
  unfold init_agg
  rw [if_neg h]
  refine congrArg some (finalRow_eq_of_fields rfl rfl ?_ ?_ rfl rfl)
  · show fldiv (groupVals raw res k b).sum (((groupVals raw res k b).length : ℚ)) =
      FloatVal.val (naiveMean (groupVals raw res k b))
    rw [fldiv_of_ne hn, naiveMean]
  · show fldiv ((sampleVar (groupVals raw res k b)).getD 0 *
        (((groupVals raw res k b).length : ℚ) - 1))
        (((groupVals raw res k b).length : ℚ) - 1) = _
    by_cases h1 : (groupVals raw res k b).length = 1
    · rw [if_pos h1]
      simp [sampleVar, h1, fldiv]
    · have hd : ((groupVals raw res k b).length : ℚ) - 1 ≠ 0 := by
        intro hc
        apply h1
        have : ((groupVals raw res k b).length : ℚ) = 1 := by linarith
        exact_mod_cast this
      rw [if_neg h1, fldiv_of_ne hd, init_ssd_eq_naive _ h]

/-- C1 witness: the round-trip property instantiated on a concrete
two-row group. -/
theorem C1_finalize_roundtrip_witness :
    groupVals [RawRow.mk 0 () 10, RawRow.mk 5 () 20] 300 () 0 ≠ [] ∧
    (init_agg [RawRow.mk 0 () 10, RawRow.mk 5 () 20] 300 () 0).map finalizeRow =
      some { key := (), time := 0,
             mean := FloatVal.val (naiveMean (groupVals [RawRow.mk 0 () 10, RawRow.mk 5 () 20] 300 () 0)),
             stdSq := if (groupVals [RawRow.mk 0 () 10, RawRow.mk 5 () 20] 300 () 0).length = 1
               then FloatVal.nan
               else FloatVal.val (naiveSumSqDiff (groupVals [RawRow.mk 0 () 10, RawRow.mk 5 () 20] 300 () 0) /
                 (((groupVals [RawRow.mk 0 () 10, RawRow.mk 5 () 20] 300 () 0).length : ℚ) - 1)),
             vmin := (listMin (groupVals [RawRow.mk 0 () 10, RawRow.mk 5 () 20] 300 () 0)).getD 0,
             vmax := (listMax (groupVals [RawRow.mk 0 () 10, RawRow.mk 5 () 20] 300 () 0)).getD 0 } :=
  ⟨by decide, C1_finalize_roundtrip [RawRow.mk 0 () 10, RawRow.mk 5 () 20] 300 () 0 (by decide)⟩

/-- C2: on a lossless table (all counts at least 1), each coarse bucket
`coarsen_agg` produces has count the sum of the contributing fine
counts, sum the sum of the fine sums, min/max the pointwise min of mins
and max of maxes, and `sum_sq_diff` the sum of the fine `sum_sq_diff`
values plus, for each fine bucket, the Chan correction term
`count * (mean - coarse_mean)^2` with `mean = sum/count` and
`coarse_mean = (sum of sums)/(sum of counts)` — exactly, in rational
arithmetic. -/
theorem C2_coarsen_combination {K : Type _} [DecidableEq K] (tbl : List (AggRow K))
    (res : ℕ) (k : K) (b : ℕ) (_hcnt : ∀ y ∈ tbl, 1 ≤ y.count)
    (hne : aggGroup tbl res k b ≠ []) :
    ∃ row, coarsen_agg tbl res k b = some row ∧
      row.count = ((aggGroup tbl res k b).map (fun y => y.count)).sum ∧
      row.sum = ((aggGroup tbl res k b).map (fun y => y.sum)).sum ∧
      row.vmin = (listMin ((aggGroup tbl res k b).map (fun y => y.vmin))).getD 0 ∧
      row.vmax = (listMax ((aggGroup tbl res k b).map (fun y => y.vmax))).getD 0 ∧
      row.sum_sq_diff =
        ((aggGroup tbl res k b).map (fun y => y.sum_sq_diff)).sum +
          ((aggGroup tbl res k b).map (fun y => (y.count : ℚ) *
            (y.sum / (y.count : ℚ) -
              ((aggGroup tbl res k b).map (fun z => z.sum)).sum /
                ((aggGroup tbl res k b).map (fun z => (z.count : ℚ))).sum) ^ 2)).sum := by
  refine ⟨coarsenOf (aggGroup tbl res k b) k b, ?_, rfl, rfl, rfl, rfl, ?_⟩
  · unfold coarsen_agg
    rw [if_neg hne]
  · rw [coarsenOf_ssd, sum_map_add]

/-- C2 witness: the combination property instantiated on a concrete
two-row lossless table merged into one coarse bucket. -/
theorem C2_coarsen_combination_witness :
    (∀ y ∈ [AggRow.mk () 0 1 10 0 10 10, AggRow.mk () 300 1 20 0 20 20], 1 ≤ y.count) ∧
    (aggGroup [AggRow.mk () 0 1 10 0 10 10, AggRow.mk () 300 1 20 0 20 20] 600 () 0 ≠ []) ∧
    ∃ row, coarsen_agg [AggRow.mk () 0 1 10 0 10 10, AggRow.mk () 300 1 20 0 20 20] 600 () 0 =
        some row ∧
      row.count = ((aggGroup [AggRow.mk () 0 1 10 0 10 10, AggRow.mk () 300 1 20 0 20 20] 600 () 0).map
        (fun y => y.count)).sum ∧
      row.sum = ((aggGroup [AggRow.mk () 0 1 10 0 10 10, AggRow.mk () 300 1 20 0 20 20] 600 () 0).map
        (fun y => y.sum)).sum ∧
      row.vmin = (listMin ((aggGroup [AggRow.mk () 0 1 10 0 10 10, AggRow.mk () 300 1 20 0 20 20] 600 () 0).map
        (fun y => y.vmin))).getD 0 ∧
      row.vmax = (listMax ((aggGroup [AggRow.mk () 0 1 10 0 10 10, AggRow.mk () 300 1 20 0 20 20] 600 () 0).map
        (fun y => y.vmax))).getD 0 ∧
      row.sum_sq_diff =
        ((aggGroup [AggRow.mk () 0 1 10 0 10 10, AggRow.mk () 300 1 20 0 20 20] 600 () 0).map
          (fun y => y.sum_sq_diff)).sum +
          ((aggGroup [AggRow.mk () 0 1 10 0 10 10, AggRow.mk () 300 1 20 0 20 20] 600 () 0).map
            (fun y => (y.count : ℚ) * (y.sum / (y.count : ℚ) -
              ((aggGroup [AggRow.mk () 0 1 10 0 10 10, AggRow.mk () 300 1 20 0 20 20] 600 () 0).map
                (fun z => z.sum)).sum /
                ((aggGroup [AggRow.mk () 0 1 10 0 10 10, AggRow.mk () 300 1 20 0 20 20] 600 () 0).map
                  (fun z => (z.count : ℚ))).sum) ^ 2)).sum :=
  ⟨by decide, by decide,
    C2_coarsen_combination [AggRow.mk () 0 1 10 0 10 10, AggRow.mk () 300 1 20 0 20 20]
      600 () 0 (by decide) (by decide)⟩

/-- C3: bucketizing two halves of a raw dataset separately at the same
resolution and merging the stacked lossless results with `coarsen_agg`
at that resolution yields, on every group, the same lossless aggregate
as bucketizing the whole dataset directly — exactly, in rational
arithmetic. -/
theorem C3_partition_merge {K : Type _} [DecidableEq K] (raw1 raw2 : List (RawRow K))
    (res : ℕ) (k : K) (b : ℕ) :
    coarsen_agg (init_agg_table raw1 res ++ init_agg_table raw2 res) res k b =
      init_agg (raw1 ++ raw2) res k b := by
  have hcong2 : groupVals raw1 res k b = [] →
      mkInitRow (raw1 ++ raw2) res (k, b) = mkInitRow raw2 res (k, b) := fun hx =>
    mkInitRow_congr (k, b) (by rw [groupVals_append, hx, List.nil_append])
  have hcong1 : groupVals raw2 res k b = [] →
      mkInitRow (raw1 ++ raw2) res (k, b) = mkInitRow raw1 res (k, b) := fun hx =>
    mkInitRow_congr (k, b) (by rw [groupVals_append, hx, List.append_nil])
  unfold coarsen_agg init_agg
  rw [aggGroup_append, aggGroup_init_table, aggGroup_init_table, groupVals_append]
  by_cases h1 : groupVals raw1 res k b = []
  · by_cases h2 : groupVals raw2 res k b = []
    · simp [h1, h2]
    · rw [if_pos h1, if_neg h2, h1]
      simp only [List.nil_append]
      rw [if_neg h2, if_neg (List.cons_ne_nil _ _)]
      exact congrArg some ((coarsenOf_single_init raw2 res k b).trans (hcong2 h1).symm)
  · by_cases h2 : groupVals raw2 res k b = []
    · rw [if_neg h1, if_pos h2, h2]
      simp only [List.append_nil]
      rw [if_neg h1, if_neg (List.cons_ne_nil _ _)]
      exact congrArg some ((coarsenOf_single_init raw1 res k b).trans (hcong1 h2).symm)
    · rw [if_neg h1, if_neg h2, List.singleton_append,
        if_neg (List.cons_ne_nil _ _),
        if_neg (fun hc => h1 (List.append_eq_nil.mp hc).1)]
      exact congrArg some (coarsenOf_pair_init raw1 raw2 res k b h1 h2)

theorem aggGroup_eq_fiber {K : Type _} [DecidableEq K] (tbl : List (AggRow K))
    (res : ℕ) (kb : K × ℕ) :
    aggGroup tbl res kb.1 kb.2 = tbl.filter (fun y => aggKey res y = kb) := by
  unfold aggGroup
  refine List.filter_congr (fun y _ => ?_)
  rw [decide_eq_decide]
  simp [aggKey, Prod.ext_iff]

theorem fiber_ne_nil {K : Type _} [DecidableEq K] {tbl : List (AggRow K)} {res : ℕ}
    {kb : K × ℕ} (h : kb ∈ pdUnique (tbl.map (aggKey res))) :
    tbl.filter (fun y => aggKey res y = kb) ≠ [] := by
  rw [mem_pdUnique, List.mem_map] at h
  obtain ⟨y, hy, rfl⟩ := h
  exact List.ne_nil_of_mem (List.mem_filter.mpr ⟨hy, by simp⟩)

theorem cast_count_sum {K : Type _} (l : List (AggRow K)) :
    (((l.map (fun y => y.count)).sum : ℕ) : ℚ) = (l.map (fun y => (y.count : ℚ))).sum := by
  induction l with
  | nil => simp
  | cons y ys ih => simp [ih]

theorem map_flatMap_comm {α β γ : Type _} (l : List α) (f : α → List β) (g : β → γ) :
    (l.flatMap f).map g = l.flatMap (fun a => (f a).map g) := by
  induction l with
  | nil => rfl
  | cons a as ih => simp [List.flatMap_cons, ih]

/-- Shifting the reference mean of a merged bucket: the merged
`sum_sq_diff` plus the merged bucket's own correction towards an
arbitrary reference mean `c` equals the sum of the member corrections
towards `c` directly (the reassociation step of Chan's identity). -/
theorem coarsenOf_ssd_shift {K : Type _} (grp : List (AggRow K)) (k : K) (b : ℕ) (c : ℚ)
    (hc : ∀ y ∈ grp, 1 ≤ y.count) :
    (coarsenOf grp k b).sum_sq_diff + ((coarsenOf grp k b).count : ℚ) *
        ((coarsenOf grp k b).sum / ((coarsenOf grp k b).count : ℚ) - c) ^ 2 =
      (grp.map (fun x => x.sum_sq_diff + (x.count : ℚ) *
        (x.sum / (x.count : ℚ) - c) ^ 2)).sum := by
  have hc' : ∀ y ∈ grp, 0 < y.count := fun y hy => hc y hy
  rw [coarsenOf_ssd, coarsenOf_count, coarsenOf_sum, cast_count_sum,
    sum_map_add, sum_map_add,
    weighted_parallel_axis grp c ((grp.map (fun y => (y.count : ℚ))).sum)
      ((grp.map (fun y => y.sum)).sum) hc' rfl rfl]
  ring

/-- C4: coarsening a lossless table (all counts at least 1) first to
resolution `r1` and then to `r2`, with `r1` dividing `r2`, gives on
every group exactly the same result as coarsening directly to `r2` —
exactly, in rational arithmetic. -/
theorem C4_chained_coarsening {K : Type _} [DecidableEq K] (tbl : List (AggRow K))
    (r1 r2 : ℕ) (k : K) (B : ℕ) (hdvd : r1 ∣ r2) (hcnt : ∀ y ∈ tbl, 1 ≤ y.count) :
    coarsen_agg (coarsen_agg_table tbl r1) r2 k B = coarsen_agg tbl r2 k B := by
  have hG2 : aggGroup (coarsen_agg_table tbl r1) r2 k B =
      ((pdUnique (tbl.map (aggKey r1))).filter
          (fun kb => kb.1 = k ∧ floorTime r2 kb.2 = B)).map
        (fun kb => coarsenOf (tbl.filter (fun y => aggKey r1 y = kb)) kb.1 kb.2) := by
    rw [aggGroup_coarsen_table]
    exact List.map_congr_left (fun kb _ => by rw [aggGroup_eq_fiber])
  have hbridge : tbl.filter
      (fun y => (fun kb => decide (kb.1 = k ∧ floorTime r2 kb.2 = B)) (aggKey r1 y)) =
      aggGroup tbl r2 k B := by
    unfold aggGroup
    refine List.filter_congr (fun y _ => ?_)
    rw [decide_eq_decide]
    simp [aggKey, floorTime_comp r1 r2 _ hdvd]
  have hperm : (((pdUnique (tbl.map (aggKey r1))).filter
        (fun kb => kb.1 = k ∧ floorTime r2 kb.2 = B)).flatMap
        (fun kb => tbl.filter (fun y => aggKey r1 y = kb))).Perm
      (aggGroup tbl r2 k B) := by
    have h1 := fibers_filter_perm tbl (aggKey r1)
      (fun kb => decide (kb.1 = k ∧ floorTime r2 kb.2 = B))
    rw [hbridge] at h1
    exact h1
  have hmemfib : ∀ kb ∈ (pdUnique (tbl.map (aggKey r1))).filter
      (fun kb => kb.1 = k ∧ floorTime r2 kb.2 = B),
      tbl.filter (fun y => aggKey r1 y = kb) ≠ [] := fun kb hkb =>
    fiber_ne_nil (List.mem_filter.mp hkb).1
  have hnil : (aggGroup (coarsen_agg_table tbl r1) r2 k B = []) ↔
      (aggGroup tbl r2 k B = []) := by
    rw [hG2]
    constructor
    · intro h
      have hks0 := List.map_eq_nil_iff.mp h
      have hflat : ((pdUnique (tbl.map (aggKey r1))).filter
          (fun kb => kb.1 = k ∧ floorTime r2 kb.2 = B)).flatMap
          (fun kb => tbl.filter (fun y => aggKey r1 y = kb)) = [] := by
        rw [hks0]
        rfl
      have hlen := hperm.length_eq
      rw [hflat] at hlen
      exact List.eq_nil_of_length_eq_zero hlen.symm
    · intro h
      have hlen := hperm.length_eq
      rw [h] at hlen
      have hflat := List.eq_nil_of_length_eq_zero hlen
      cases hks0 : (pdUnique (tbl.map (aggKey r1))).filter
          (fun kb => kb.1 = k ∧ floorTime r2 kb.2 = B) with
      | nil =>
          rfl
      | cons kb ks' =>
          exfalso
          have hkbm : kb ∈ (pdUnique (tbl.map (aggKey r1))).filter
              (fun kb => kb.1 = k ∧ floorTime r2 kb.2 = B) := by
            rw [hks0]
            exact List.mem_cons_self kb ks'
          rw [hks0, List.flatMap_cons] at hflat
          exact hmemfib kb hkbm (List.append_eq_nil.mp hflat).1
  by_cases hG : aggGroup tbl r2 k B = []
  · unfold coarsen_agg
    rw [if_pos hG, if_pos (hnil.mpr hG)]
  · unfold coarsen_agg
    rw [if_neg hG, if_neg (fun hc => hG (hnil.mp hc))]
    have hfun_cnt : ((fun y : AggRow K => y.count) ∘
        (fun kb => coarsenOf (tbl.filter (fun y => aggKey r1 y = kb)) kb.1 kb.2)) =
        fun kb => ((tbl.filter (fun y => aggKey r1 y = kb)).map (fun y => y.count)).sum := rfl
    have hfun_sum : ((fun y : AggRow K => y.sum) ∘
        (fun kb => coarsenOf (tbl.filter (fun y => aggKey r1 y = kb)) kb.1 kb.2)) =
        fun kb => ((tbl.filter (fun y => aggKey r1 y = kb)).map (fun y => y.sum)).sum := rfl
    have hsums : ((aggGroup (coarsen_agg_table tbl r1) r2 k B).map (fun y => y.sum)).sum =
        ((aggGroup tbl r2 k B).map (fun y => y.sum)).sum := by
      rw [hG2, List.map_map, hfun_sum, ← sum_flatMap_map]
      exact (hperm.map _).sum_eq
    have hcnts : ((aggGroup (coarsen_agg_table tbl r1) r2 k B).map (fun y => y.count)).sum =
        ((aggGroup tbl r2 k B).map (fun y => y.count)).sum := by
      rw [hG2, List.map_map, hfun_cnt, ← sum_flatMap_map]
      exact (hperm.map _).sum_eq
    refine congrArg some (aggRow_eq_of_fields rfl rfl hcnts hsums ?_ ?_ ?_)
    · -- the sum_sq_diff field: Chan's identity over the two-level merge
      have hcntQ : ((aggGroup (coarsen_agg_table tbl r1) r2 k B).map
          (fun y => (y.count : ℚ))).sum =
          ((aggGroup tbl r2 k B).map (fun y => (y.count : ℚ))).sum := by
        have h1 : (Nat.cast (((aggGroup (coarsen_agg_table tbl r1) r2 k B).map
            (fun y => y.count)).sum) : ℚ) =
            (Nat.cast (((aggGroup tbl r2 k B).map (fun y => y.count)).sum) : ℚ) := by
          rw [hcnts]
        rw [cast_count_sum, cast_count_sum] at h1
        exact h1
      rw [coarsenOf_ssd, coarsenOf_ssd, hcntQ, hsums]
      rw [hG2, List.map_map]
      simp only [Function.comp_def]
      rw [List.map_congr_left (fun kb _ => coarsenOf_ssd_shift
        (tbl.filter (fun y => aggKey r1 y = kb)) kb.1 kb.2
        (((aggGroup tbl r2 k B).map (fun z => z.sum)).sum /
          ((aggGroup tbl r2 k B).map (fun z => (z.count : ℚ))).sum)
        (fun y hy => hcnt y (List.mem_filter.mp hy).1))]
      rw [← sum_flatMap_map]
      exact (hperm.map _).sum_eq
    · rw [coarsenOf_vmin, coarsenOf_vmin, hG2, List.map_map]
      have hfun_vmin : ((fun y : AggRow K => y.vmin) ∘
          (fun kb => coarsenOf (tbl.filter (fun y => aggKey r1 y = kb)) kb.1 kb.2)) =
          fun kb => (ofold min ((tbl.filter (fun y => aggKey r1 y = kb)).map
            (fun y => y.vmin))).getD 0 := rfl
      rw [hfun_vmin]
      simp only [listMin]
      rw [ofold_map_getD min (fun a b c => min_assoc a b c) _ _
        (fun kb hkb hc => hmemfib kb hkb (List.map_eq_nil_iff.mp hc))]
      rw [← map_flatMap_comm]
      exact congrArg (fun o => Option.getD o 0)
        (ofold_perm min (fun a b c => min_assoc a b c) (fun a b => min_comm a b)
          (hperm.map _))
    · rw [coarsenOf_vmax, coarsenOf_vmax, hG2, List.map_map]
      have hfun_vmax : ((fun y : AggRow K => y.vmax) ∘
          (fun kb => coarsenOf (tbl.filter (fun y => aggKey r1 y = kb)) kb.1 kb.2)) =
          fun kb => (ofold max ((tbl.filter (fun y => aggKey r1 y = kb)).map
            (fun y => y.vmax))).getD 0 := rfl
      rw [hfun_vmax]
      simp only [listMax]
      rw [ofold_map_getD max (fun a b c => max_assoc a b c) _ _
        (fun kb hkb hc => hmemfib kb hkb (List.map_eq_nil_iff.mp hc))]
      rw [← map_flatMap_comm]
      exact congrArg (fun o => Option.getD o 0)
        (ofold_perm max (fun a b c => max_assoc a b c) (fun a b => max_comm a b)
          (hperm.map _))

/-- C4 witness: chained coarsening instantiated on a concrete two-row
lossless table, 30 s then 60 s against directly 60 s. -/
theorem C4_chained_coarsening_witness :
    (30 ∣ 60) ∧
    (∀ y ∈ [AggRow.mk () 0 1 3 0 3 3, AggRow.mk () 15 1 5 0 5 5], 1 ≤ y.count) ∧
    coarsen_agg (coarsen_agg_table [AggRow.mk () 0 1 3 0 3 3, AggRow.mk () 15 1 5 0 5 5] 30)
        60 () 0 =
      coarsen_agg [AggRow.mk () 0 1 3 0 3 3, AggRow.mk () 15 1 5 0 5 5] 60 () 0 :=
  ⟨by decide, by decide,
    C4_chained_coarsening [AggRow.mk () 0 1 3 0 3 3, AggRow.mk () 15 1 5 0 5 5]
      30 60 () 0 (by decide) (by decide)⟩

/-- C5: when a group holds exactly one raw sample `v`, `init_agg` gives
it `sum_sq_diff = 0` — a defined rational zero, not a missing value —
and finalizing that bucket gives `mean = v`, `min = max = v` and a NaN
standard deviation (`stdSq` is NaN, hence `std = stdSq ** 0.5` is NaN),
not an error and not zero. -/
theorem C5_single_sample {K : Type _} [DecidableEq K] (raw : List (RawRow K))
    (res : ℕ) (k : K) (b : ℕ) (v : ℚ) (h : groupVals raw res k b = [v]) :
    init_agg raw res k b = some (mkInitRow raw res (k, b)) ∧
    (mkInitRow raw res (k, b)).sum_sq_diff = 0 ∧
    finalizeRow (mkInitRow raw res (k, b)) =
      { key := k, time := b, mean := FloatVal.val v, stdSq := FloatVal.nan,
        vmin := v, vmax := v } := by
  have hne : groupVals raw res k b ≠ [] := by
    rw [h]
    exact List.cons_ne_nil v []
  refine ⟨by unfold init_agg; rw [if_neg hne], ?_, ?_⟩
  · rw [mkInitRow_ssd, h]
    simp [sampleVar]
  · refine finalRow_eq_of_fields rfl rfl ?_ ?_ ?_ ?_
    · show fldiv (groupVals raw res k b).sum ((groupVals raw res k b).length : ℚ) = _
      rw [h]
      simp [fldiv]
    · show fldiv ((sampleVar (groupVals raw res k b)).getD 0 *
          (((groupVals raw res k b).length : ℚ) - 1))
          (((groupVals raw res k b).length : ℚ) - 1) = FloatVal.nan
      rw [h]
      simp [sampleVar, fldiv]
    · show (listMin (groupVals raw res k b)).getD 0 = v
      rw [h]
      rfl
    · show (listMax (groupVals raw res k b)).getD 0 = v
      rw [h]
      rfl

/-- C5 witness: the single-sample property instantiated on one concrete
raw row. -/
theorem C5_single_sample_witness :
    groupVals [RawRow.mk 0 () 7] 300 () 0 = [7] ∧
    (init_agg [RawRow.mk 0 () 7] 300 () 0 = some (mkInitRow [RawRow.mk 0 () 7] 300 ((), 0)) ∧
      (mkInitRow [RawRow.mk 0 () 7] 300 ((), 0)).sum_sq_diff = 0 ∧
      finalizeRow (mkInitRow [RawRow.mk 0 () 7] 300 ((), 0)) =
        { key := (), time := 0, mean := FloatVal.val 7, stdSq := FloatVal.nan,
          vmin := 7, vmax := 7 }) :=
  ⟨by decide, C5_single_sample [RawRow.mk 0 () 7] 300 () 0 7 (by decide)⟩

/-- C6: the concrete scenario — raw rows
`[(t=0s, key='A', v=10), (t=5s, key='A', v=20), (t=300s, key='A', v=30)]`
bucketized at 5-minute (300 s) resolution gives exactly two buckets,
bucket 0 with count 2, sum 30, sum_sq_diff 50, min 10, max 20 and bucket
300 with count 1, sum 30, sum_sq_diff 0, min = max = 30; finalizing
gives bucket 0 with mean 15, squared std 50 (std = sqrt 50 = 7.071...),
min 10, max 20 and bucket 300 with mean 30, NaN std, min = max = 30. -/
theorem C6_scenario :
    init_agg_table [RawRow.mk 0 'A' 10, RawRow.mk 5 'A' 20, RawRow.mk 300 'A' 30] 300 =
      [AggRow.mk 'A' 0 2 30 50 10 20, AggRow.mk 'A' 300 1 30 0 30 30] ∧
    finalize_agg (init_agg_table
        [RawRow.mk 0 'A' 10, RawRow.mk 5 'A' 20, RawRow.mk 300 'A' 30] 300) =
      [FinalRow.mk 'A' 0 (FloatVal.val 15) (FloatVal.val 50) 10 20,
       FinalRow.mk 'A' 300 (FloatVal.val 30) FloatVal.nan 30 30] := by
  constructor
  · norm_num [init_agg_table, pdUnique, pdUniqueAux, groupKey, floorTime, mkInitRow,
      groupVals, sampleVar, pdMean, listMin, listMax, ofold, obin, finalize_agg,
      finalizeRow, fldiv]
  · norm_num [init_agg_table, pdUnique, pdUniqueAux, groupKey, floorTime, mkInitRow,
      groupVals, sampleVar, pdMean, listMin, listMax, ofold, obin, finalize_agg,
      finalizeRow, fldiv]

/-! ### The column-naming layer -/

theorem splitDot_ne_nil (s : PyStr) : splitDot s ≠ [] := by
  match s with
  | [] => simp [splitDot]
  | c :: cs =>
    rw [splitDot]
    by_cases hc : c = '.'
    · simp [hc]
    · rw [if_neg hc]
      cases splitDot cs <;> simp

theorem splitDot_no_dot (s : PyStr) (h : '.' ∉ s) : splitDot s = [s] := by
  induction s with
  | nil => rfl
  | cons c cs ih =>
    have hc : ¬ c = '.' := fun hc => h (hc ▸ List.mem_cons_self c cs)
    have hcs : '.' ∉ cs := fun hm => h (List.mem_cons_of_mem c hm)
    rw [splitDot, if_neg hc, ih hcs]

theorem joinDot_splitDot (s : PyStr) : joinDot (splitDot s) = s := by
  induction s with
  | nil => rfl
  | cons c cs ih =>
    by_cases hc : c = '.'
    · rw [splitDot, if_pos hc]
      cases hsp : splitDot cs with
      | nil => exact absurd hsp (splitDot_ne_nil cs)
      | cons p ps =>
        rw [hsp] at ih
        show [] ++ '.' :: joinDot (p :: ps) = c :: cs
        rw [List.nil_append, ih, hc]
    · rw [splitDot, if_neg hc]
      cases hsp : splitDot cs with
      | nil => exact absurd hsp (splitDot_ne_nil cs)
      | cons p ps =>
        rw [hsp] at ih
        cases ps with
        | nil =>
          show c :: p = c :: cs
          rw [show joinDot [p] = p from rfl] at ih
          rw [ih]
        | cons q qs =>
          show (c :: p) ++ '.' :: joinDot (q :: qs) = c :: cs
          rw [show joinDot (p :: q :: qs) = p ++ '.' :: joinDot (q :: qs) from rfl] at ih
          rw [List.cons_append, ih]

theorem splitDot_append_dot (a b : PyStr) :
    splitDot (a ++ '.' :: b) = splitDot a ++ splitDot b := by
  induction a with
  | nil =>
    show splitDot ('.' :: b) = [[]] ++ splitDot b
    rw [splitDot, if_pos rfl]
    rfl
  | cons c cs ih =>
    by_cases hc : c = '.'
    · show splitDot (c :: (cs ++ '.' :: b)) = splitDot (c :: cs) ++ splitDot b
      rw [splitDot, if_pos hc, ih, splitDot, if_pos hc]
      rfl
    · show splitDot (c :: (cs ++ '.' :: b)) = splitDot (c :: cs) ++ splitDot b
      rw [splitDot, if_neg hc, ih, splitDot, if_neg hc]
      cases hsp : splitDot cs with
      | nil => exact absurd hsp (splitDot_ne_nil cs)
      | cons p ps => rfl

theorem varOf_dotted (v s : PyStr) (h : '.' ∉ s) : varOf (dotted v s) = v := by
  rw [varOf, dotted, splitDot_append_dot, splitDot_no_dot s h,
    List.dropLast_concat, joinDot_splitDot]

theorem varOf_no_dot (c : PyStr) (h : '.' ∉ c) : varOf c = [] := by
  rw [varOf, splitDot_no_dot c h]
  rfl

theorem pdUniqueAux_skip_block {α : Type _} [DecidableEq α] (blk : List α) :
    ∀ (seen rest : List α) (v : α), (∀ x ∈ blk, x = v) → v ∈ seen →
      pdUniqueAux seen (blk ++ rest) = pdUniqueAux seen rest := by
  induction blk with
  | nil =>
    intro seen rest v _ _
    rfl
  | cons x bs ih =>
    intro seen rest v hall hv
    have hx : x = v := hall x (List.mem_cons_self x bs)
    subst hx
    rw [List.cons_append, pdUniqueAux, if_pos hv]
    exact ih seen rest x (fun z hz => hall z (List.mem_cons_of_mem x hz)) hv

theorem pdUniqueAux_flatMap_const {α : Type _} [DecidableEq α] (vars : List α) :
    ∀ (seen : List α) (g : α → List α), vars.Nodup →
      (∀ v ∈ vars, g v ≠ [] ∧ ∀ x ∈ g v, x = v) →
      (∀ v ∈ vars, v ∉ seen) →
      pdUniqueAux seen (vars.flatMap g) = vars := by
  induction vars with
  | nil =>
    intro seen g _ _ _
    rfl
  | cons v vs ih =>
    intro seen g hnd hg hseen
    obtain ⟨hvn, hvsnd⟩ := List.nodup_cons.mp hnd
    obtain ⟨hne, hall⟩ := hg v (List.mem_cons_self v vs)
    rw [List.flatMap_cons]
    cases hgv : g v with
    | nil => exact absurd hgv hne
    | cons x blk =>
      have hx : x = v := hall x (by rw [hgv]; exact List.mem_cons_self x blk)
      subst hx
      rw [List.cons_append, pdUniqueAux, if_neg (hseen x (List.mem_cons_self x vs))]
      refine congrArg (List.cons x) ?_
      rw [pdUniqueAux_skip_block blk (x :: seen) (vs.flatMap g) x
        (fun z hz => hall z (by rw [hgv]; exact List.mem_cons_of_mem x hz))
        (List.mem_cons_self x seen)]
      refine ih (x :: seen) g hvsnd
        (fun v' hv' => hg v' (List.mem_cons_of_mem x hv'))
        (fun v' hv' => ?_)
      rw [List.mem_cons]
      rintro (rfl | hc)
      · exact hvn hv'
      · exact hseen v' (List.mem_cons_of_mem x hv') hc

theorem get_vars_blocks (vars suffixes not_vars : List PyStr) (hnd : vars.Nodup)
    (hsne : suffixes ≠ []) (hdot : ∀ s ∈ suffixes, '.' ∉ s)
    (hclash : ∀ v ∈ vars, ∀ s ∈ suffixes, dotted v s ∉ not_vars) :
    get_vars_from_flat_cols (vars.flatMap (fun v => suffixes.map (dotted v))) not_vars =
      vars := by
  unfold get_vars_from_flat_cols
  have hfilter : (vars.flatMap (fun v => suffixes.map (dotted v))).filter
      (fun col => col ∉ not_vars) = vars.flatMap (fun v => suffixes.map (dotted v)) := by
    refine List.filter_eq_self.mpr (fun a ha => ?_)
    rw [List.mem_flatMap] at ha
    obtain ⟨v, hv, hmem⟩ := ha
    rw [List.mem_map] at hmem
    obtain ⟨s, hs, rfl⟩ := hmem
    simpa using hclash v hv s hs
  rw [hfilter, map_flatMap_comm]
  rw [pdUnique]
  refine pdUniqueAux_flatMap_const vars [] _ hnd (fun v hv => ⟨?_, ?_⟩) (fun v _ => by simp)
  · intro hc
    rw [List.map_eq_nil_iff, List.map_eq_nil_iff] at hc
    exact hsne hc
  · intro x hx
    rw [List.map_map, List.mem_map] at hx
    obtain ⟨s, hs, rfl⟩ := hx
    exact varOf_dotted v s (hdot s hs)

theorem get_vars_drop_not_vars (cols not_vars : List PyStr) :
    get_vars_from_flat_cols (not_vars ++ cols) not_vars =
      get_vars_from_flat_cols cols not_vars := by
  unfold get_vars_from_flat_cols
  rw [List.filter_append]
  have h1 : not_vars.filter (fun col => col ∉ not_vars) = [] := by
    rw [List.filter_eq_nil_iff]
    intro a ha
    simp [ha]
  rw [h1, List.nil_append]

/-- C7: for nodup variable names and dot-free statistic suffixes, the
variable set is recovered exactly from the flat columns produced by
`get_cols` (per-variable blocks, as `init_agg` lays them out) prefixed
by the non-variable (grouping/time) columns passed as `not_vars`,
provided no generated column collides with a non-variable column. -/
theorem C7_column_roundtrip (vars suffixes not_vars : List PyStr) (hnd : vars.Nodup)
    (hsne : suffixes ≠ []) (hdot : ∀ s ∈ suffixes, '.' ∉ s)
    (hclash : ∀ v ∈ vars, ∀ s ∈ suffixes, dotted v s ∉ not_vars) :
    get_vars_from_flat_cols
      (not_vars ++ vars.flatMap (fun v => suffixes.map (dotted v))) not_vars = vars := by
  rw [get_vars_drop_not_vars]
  exact get_vars_blocks vars suffixes not_vars hnd hsne hdot hclash

/-- C7 witness: recovering `["x", "y"]` from the five lossless statistic
columns plus grouping/time columns. -/
theorem C7_column_roundtrip_witness :
    (["x".toList, "y".toList] : List PyStr).Nodup ∧
    ([countName, sumName, ssdName, maxName, minName] : List PyStr) ≠ [] ∧
    (∀ s ∈ [countName, sumName, ssdName, maxName, minName], '.' ∉ s) ∧
    (∀ v ∈ ["x".toList, "y".toList], ∀ s ∈ [countName, sumName, ssdName, maxName, minName],
      dotted v s ∉ ["host".toList, "timestamp".toList]) ∧
    get_vars_from_flat_cols
      (["host".toList, "timestamp".toList] ++
        ["x".toList, "y".toList].flatMap
          (fun v => [countName, sumName, ssdName, maxName, minName].map (dotted v)))
      ["host".toList, "timestamp".toList] = ["x".toList, "y".toList] :=
  ⟨by decide, by decide, by decide, by decide,
    C7_column_roundtrip ["x".toList, "y".toList]
      [countName, sumName, ssdName, maxName, minName]
      ["host".toList, "timestamp".toList] (by decide) (by decide) (by decide) (by decide)⟩

theorem bind_error_unit {ε β : Type _} (e : ε) (f : Unit → Except ε β) :
    ((Except.error e : Except ε Unit) >>= f) = Except.error e := rfl

theorem bind_ok_unit {ε β : Type _} (f : Unit → Except ε β) :
    ((Except.ok () : Except ε Unit) >>= f) = f () := rfl

theorem isOk_seq {ε β : Type _} (a : Except ε Unit) (f : Unit → Except ε β)
    (h : (a >>= f).isOk = true) : a = Except.ok () ∧ (f ()).isOk = true := by
  cases a with
  | error e =>
    rw [bind_error_unit] at h
    simp [Except.isOk, Except.toBool] at h
  | ok u =>
    cases u
    rw [bind_ok_unit] at h
    exact ⟨rfl, h⟩

theorem requireCols_ok {present needed : List PyStr} (h : ∀ c ∈ needed, c ∈ present) :
    requireCols present needed = Except.ok () := by
  unfold requireCols
  have hf : needed.find? (fun c => c ∉ present) = none :=
    List.find?_eq_none.mpr (fun x hx => by simpa using h x hx)
  rw [hf]

theorem requireCols_ok_forall {present needed : List PyStr}
    (h : requireCols present needed = Except.ok ()) : ∀ c ∈ needed, c ∈ present := by
  unfold requireCols at h
  cases hf : needed.find? (fun c => c ∉ present) with
  | some c =>
    rw [hf] at h
    exact absurd h (by simp)
  | none =>
    intro c hc
    have := List.find?_eq_none.mp hf c hc
    simpa using this

theorem coarsen_shape_ok_keys (t : Table) (time_col : PyStr) (grouping_cols : List PyStr)
    (h : (coarsen_shape t time_col grouping_cols).isOk = true) :
    ∀ c ∈ grouping_cols ++ [time_col],
      c ∈ (if (grouping_cols ++ [time_col]).any (fun v => v ∉ t.cols)
        then reset_index t else t).cols := by
  simp only [coarsen_shape] at h
  obtain ⟨_, h⟩ := isOk_seq _ _ h
  obtain ⟨_, h⟩ := isOk_seq _ _ h
  obtain ⟨_, h⟩ := isOk_seq _ _ h
  obtain ⟨h4, _⟩ := isOk_seq _ _ h
  exact requireCols_ok_forall h4

theorem finalize_shape_ok_keys (t : Table) (time_col : PyStr) (grouping_cols : List PyStr)
    (h : (finalize_shape t time_col grouping_cols).isOk = true) :
    ∀ c ∈ grouping_cols ++ [time_col],
      c ∈ (if (grouping_cols ++ [time_col]).any (fun v => v ∉ t.cols)
        then reset_index t else t).cols := by
  simp only [finalize_shape] at h
  obtain ⟨_, h⟩ := isOk_seq _ _ h
  obtain ⟨_, h⟩ := isOk_seq _ _ h
  obtain ⟨_, h⟩ := isOk_seq _ _ h
  obtain ⟨h4, _⟩ := isOk_seq _ _ h
  exact requireCols_ok_forall h4

/-- C9: when a grouping or time column is neither a column nor an index
level, both `coarsen_agg` and `finalize_agg` surface an error (the
`KeyError` of the first failing access) rather than producing output;
and when the key columns are index levels of a lossless table — the
multi-indexed output of `init_agg` — the reset-index fallback promotes
them and both calls succeed. -/
theorem C9_missing_key_columns (time_col : PyStr) (grouping_cols : List PyStr) :
    (∀ t : Table, (∃ c ∈ grouping_cols ++ [time_col], c ∉ t.index ++ t.cols) →
      (coarsen_shape t time_col grouping_cols).isOk = false ∧
      (finalize_shape t time_col grouping_cols).isOk = false) ∧
    (∀ vars : List PyStr, vars.Nodup →
      (∀ v ∈ vars, ∀ s ∈ [countName, sumName, ssdName, maxName, minName],
        dotted v s ∉ grouping_cols ++ [time_col]) →
      (coarsen_shape ⟨grouping_cols ++ [time_col], init_agg_cols vars⟩
          time_col grouping_cols).isOk = true ∧
      (finalize_shape ⟨grouping_cols ++ [time_col], init_agg_cols vars⟩
          time_col grouping_cols).isOk = true) := by
  constructor
  · rintro t ⟨c, hcreq, hcmiss⟩
    have hccols : c ∉ t.cols := fun hc => hcmiss (List.mem_append.mpr (Or.inr hc))
    have hany : (grouping_cols ++ [time_col]).any (fun v => v ∉ t.cols) = true :=
      List.any_eq_true.mpr ⟨c, hcreq, by simpa using hccols⟩
    have hmiss1 : c ∉ (if (grouping_cols ++ [time_col]).any (fun v => v ∉ t.cols)
        then reset_index t else t).cols := by
      rw [if_pos hany]
      exact hcmiss
    constructor
    · cases hok : (coarsen_shape t time_col grouping_cols).isOk with
      | false => rfl
      | true => exact absurd (coarsen_shape_ok_keys t time_col grouping_cols hok c hcreq) hmiss1
    · cases hok : (finalize_shape t time_col grouping_cols).isOk with
      | false => rfl
      | true => exact absurd (finalize_shape_ok_keys t time_col grouping_cols hok c hcreq) hmiss1
  · intro vars hnd hclash
    have htc : time_col ∈ grouping_cols ++ [time_col] :=
      List.mem_append.mpr (Or.inr (List.mem_cons_self time_col []))
    have hinit_mem : ∀ c ∈ init_agg_cols vars, c ∉ grouping_cols ++ [time_col] := by
      intro c hc
      rw [show init_agg_cols vars = vars.flatMap (fun v =>
        [dotted v countName, dotted v sumName, dotted v ssdName,
         dotted v maxName, dotted v minName]) from rfl, List.mem_flatMap] at hc
      obtain ⟨v, hv, hin⟩ := hc
      have hin' : ∃ s ∈ [countName, sumName, ssdName, maxName, minName], c = dotted v s := by
        simp only [List.mem_cons, List.not_mem_nil, or_false] at hin
        rcases hin with rfl | rfl | rfl | rfl | rfl
        · exact ⟨countName, by simp, rfl⟩
        · exact ⟨sumName, by simp, rfl⟩
        · exact ⟨ssdName, by simp, rfl⟩
        · exact ⟨maxName, by simp, rfl⟩
        · exact ⟨minName, by simp, rfl⟩
      obtain ⟨s, hs, rfl⟩ := hin'
      exact hclash v hv s hs
    have htcmiss : time_col ∉ init_agg_cols vars := fun hc => hinit_mem time_col hc htc
    have hany : (grouping_cols ++ [time_col]).any
        (fun v => v ∉ (Table.mk (grouping_cols ++ [time_col]) (init_agg_cols vars)).cols)
        = true :=
      List.any_eq_true.mpr ⟨time_col, htc, by simpa using htcmiss⟩
    have hvars : get_vars_from_flat_cols (init_agg_cols vars)
        (grouping_cols ++ [time_col]) = vars := by
      rw [show init_agg_cols vars = vars.flatMap (fun v =>
        [countName, sumName, ssdName, maxName, minName].map (dotted v)) from rfl]
      exact get_vars_blocks vars _ _ hnd (by simp) (by decide) hclash
    have hkeys : ∀ c ∈ grouping_cols ++ [time_col],
        c ∈ (grouping_cols ++ [time_col]) ++ init_agg_cols vars := fun c hc =>
      List.mem_append.mpr (Or.inl hc)
    have hstat : ∀ s : PyStr, s ∈ [countName, sumName, ssdName, maxName, minName] →
        ∀ c ∈ get_cols vars s, c ∈ (grouping_cols ++ [time_col]) ++ init_agg_cols vars := by
      intro s hsmem c hc
      rw [get_cols, List.mem_map] at hc
      obtain ⟨v, hv, rfl⟩ := hc
      refine List.mem_append.mpr (Or.inr ?_)
      rw [show init_agg_cols vars = vars.flatMap (fun v =>
        [dotted v countName, dotted v sumName, dotted v ssdName,
         dotted v maxName, dotted v minName]) from rfl, List.mem_flatMap]
      refine ⟨v, hv, ?_⟩
      simp only [List.mem_cons, List.not_mem_nil, or_false] at hsmem ⊢
      rcases hsmem with rfl | rfl | rfl | rfl | rfl
      · exact Or.inl rfl
      · exact Or.inr (Or.inl rfl)
      · exact Or.inr (Or.inr (Or.inl rfl))
      · exact Or.inr (Or.inr (Or.inr (Or.inl rfl)))
      · exact Or.inr (Or.inr (Or.inr (Or.inr rfl)))
    have e1 : requireCols ((grouping_cols ++ [time_col]) ++ init_agg_cols vars) [time_col] =
        Except.ok () := requireCols_ok (by
          intro c hc
          rw [List.mem_singleton] at hc
          exact hkeys c (hc ▸ htc))
    have e2 : requireCols ((grouping_cols ++ [time_col]) ++ init_agg_cols vars)
        (get_cols vars countName) = Except.ok () :=
      requireCols_ok (hstat countName (by simp))
    have e3 : requireCols ((grouping_cols ++ [time_col]) ++ init_agg_cols vars)
        (get_cols vars sumName) = Except.ok () :=
      requireCols_ok (hstat sumName (by simp))
    have e4 : requireCols ((grouping_cols ++ [time_col]) ++ init_agg_cols vars)
        (grouping_cols ++ [time_col]) = Except.ok () := requireCols_ok hkeys
    have e5 : requireCols ((grouping_cols ++ [time_col]) ++ init_agg_cols vars)
        (get_cols vars ssdName) = Except.ok () :=
      requireCols_ok (hstat ssdName (by simp))
    have e6 : requireCols ((grouping_cols ++ [time_col]) ++ init_agg_cols vars)
        (get_cols vars minName ++ get_cols vars maxName) = Except.ok () :=
      requireCols_ok (by
        intro c hc
        rcases List.mem_append.mp hc with hcm | hcm
        · exact hstat minName (by simp) c hcm
        · exact hstat maxName (by simp) c hcm)
    have hvars1 : get_vars_from_flat_cols
        ((grouping_cols ++ [time_col]) ++ init_agg_cols vars)
        (grouping_cols ++ [time_col]) = vars := by
      rw [get_vars_drop_not_vars]
      exact hvars
    constructor
    · simp only [coarsen_shape, reset_index, hany, if_pos, hvars]
      rw [e1, bind_ok_unit, e2, bind_ok_unit, e3, bind_ok_unit, e4, bind_ok_unit,
        e5, bind_ok_unit, e6, bind_ok_unit]
      rfl
    · simp only [finalize_shape, reset_index, hany, if_pos, hvars1]
      rw [e2, bind_ok_unit, e3, bind_ok_unit, e5, bind_ok_unit, e4, bind_ok_unit,
        e6, bind_ok_unit]
      rfl

/-- C9 witness: with grouping column `host` and time column `timestamp`,
a table offering neither as column or index level makes both stages
fail, and the multi-indexed lossless table of variable `x` makes both
stages succeed. -/
theorem C9_missing_key_columns_witness :
    ((∃ c ∈ ["host".toList] ++ ["timestamp".toList],
        c ∉ (Table.mk [] (init_agg_cols ["x".toList])).index ++
          (Table.mk [] (init_agg_cols ["x".toList])).cols) →
      (coarsen_shape (Table.mk [] (init_agg_cols ["x".toList]))
          "timestamp".toList ["host".toList]).isOk = false ∧
      (finalize_shape (Table.mk [] (init_agg_cols ["x".toList]))
          "timestamp".toList ["host".toList]).isOk = false) ∧
    ((["x".toList] : List PyStr).Nodup →
      (∀ v ∈ ["x".toList], ∀ s ∈ [countName, sumName, ssdName, maxName, minName],
        dotted v s ∉ ["host".toList] ++ ["timestamp".toList]) →
      (coarsen_shape ⟨["host".toList] ++ ["timestamp".toList], init_agg_cols ["x".toList]⟩
          "timestamp".toList ["host".toList]).isOk = true ∧
      (finalize_shape ⟨["host".toList] ++ ["timestamp".toList], init_agg_cols ["x".toList]⟩
          "timestamp".toList ["host".toList]).isOk = true) :=
  ⟨(C9_missing_key_columns "timestamp".toList ["host".toList]).1
      (Table.mk [] (init_agg_cols ["x".toList])),
    fun h1 h2 =>
      (C9_missing_key_columns "timestamp".toList ["host".toList]).2 ["x".toList] h1 h2⟩

/-- C10: `get_vars_from_flat_cols` returns each variable name at most
once (its result has no duplicates), and a column without any dot that
is not in `not_vars` contributes the empty string as a variable name —
it is neither skipped nor an error. -/
theorem C10_dedup_and_dotless (cols not_vars : List PyStr) :
    (get_vars_from_flat_cols cols not_vars).Nodup ∧
    ∀ c ∈ cols, c ∉ not_vars → '.' ∉ c →
      ([] : PyStr) ∈ get_vars_from_flat_cols cols not_vars := by
  constructor
  · exact pdUnique_nodup _
  · intro c hc hnv hdot
    unfold get_vars_from_flat_cols
    rw [mem_pdUnique]
    exact List.mem_map.mpr ⟨c, List.mem_filter.mpr ⟨hc, by simpa using hnv⟩,
      varOf_no_dot c hdot⟩

/-- C8 counterexample: with a single variable `v` and no grouping
columns, the columns `coarsen_agg` produces are NOT in the same order as
the lossless table `init_agg` produced: `init_agg` orders
`v.max, v.min`, while the coarsening aggregation dict orders
`v.min, v.max`. -/
theorem C8_counterexample :
    coarsen_agg_cols (init_agg_cols ["v".toList]) [] ≠ init_agg_cols ["v".toList] := by
  decide

/-- C8, amended: `coarsen_agg`'s output carries per variable the same
five lossless statistic columns as its input, but ordered
`count, sum, sum_sq_diff, min, max`: a permutation of `init_agg`'s
column order (which puts `max` before `min`), and exactly equal —
including order — to the columns of a prior `coarsen_agg` pass, so that
a second coarsening leaves the column list unchanged. -/
theorem C8_coarsen_columns_amended (vars not_vars : List PyStr) (hnd : vars.Nodup)
    (hclash : ∀ v ∈ vars, ∀ s ∈ [countName, sumName, ssdName, maxName, minName],
      dotted v s ∉ not_vars) :
    (coarsen_agg_cols (init_agg_cols vars) not_vars).Perm (init_agg_cols vars) ∧
    coarsen_agg_cols (coarsen_agg_cols (init_agg_cols vars) not_vars) not_vars =
      coarsen_agg_cols (init_agg_cols vars) not_vars := by
  have hbij : init_agg_cols vars =
      vars.flatMap (fun v => [countName, sumName, ssdName, maxName, minName].map (dotted v)) :=
    rfl
  have h1 : get_vars_from_flat_cols (init_agg_cols vars) not_vars = vars := by
    rw [hbij]
    exact get_vars_blocks vars _ not_vars hnd (by simp) (by decide) hclash
  have hcoarsen1 : coarsen_agg_cols (init_agg_cols vars) not_vars =
      vars.flatMap (fun v => [countName, sumName, ssdName, minName, maxName].map (dotted v)) := by
    unfold coarsen_agg_cols
    rw [h1]
    rfl
  have hperm : ∀ ws : List PyStr,
      (ws.flatMap (fun v => [countName, sumName, ssdName, minName, maxName].map (dotted v))).Perm
        (ws.flatMap (fun v => [countName, sumName, ssdName, maxName, minName].map (dotted v))) := by
    intro ws
    induction ws with
    | nil => exact List.Perm.refl []
    | cons w ws ih =>
      rw [List.flatMap_cons, List.flatMap_cons]
      refine List.Perm.append ?_ ih
      exact List.Perm.cons _ (List.Perm.cons _ (List.Perm.cons _ (List.Perm.swap _ _ _)))
  constructor
  · rw [hcoarsen1, hbij]
    exact hperm vars
  · have h2 : get_vars_from_flat_cols
        (vars.flatMap (fun v => [countName, sumName, ssdName, minName, maxName].map (dotted v)))
        not_vars = vars := by
      refine get_vars_blocks vars _ not_vars hnd (by simp) (by decide) ?_
      intro v hv s hs
      refine hclash v hv s ?_
      simp only [List.mem_cons, List.not_mem_nil, or_false] at hs ⊢
      tauto
    rw [hcoarsen1]
    unfold coarsen_agg_cols
    rw [h2]
    rfl

/-- C8 amended witness: one variable `x`, grouping/time columns
`host, timestamp`. -/
theorem C8_coarsen_columns_amended_witness :
    (["x".toList] : List PyStr).Nodup ∧
    (∀ v ∈ ["x".toList], ∀ s ∈ [countName, sumName, ssdName, maxName, minName],
      dotted v s ∉ ["host".toList, "timestamp".toList]) ∧
    ((coarsen_agg_cols (init_agg_cols ["x".toList])
        ["host".toList, "timestamp".toList]).Perm (init_agg_cols ["x".toList]) ∧
      coarsen_agg_cols (coarsen_agg_cols (init_agg_cols ["x".toList])
          ["host".toList, "timestamp".toList]) ["host".toList, "timestamp".toList] =
        coarsen_agg_cols (init_agg_cols ["x".toList]) ["host".toList, "timestamp".toList]) :=
  ⟨by decide, by decide,
    C8_coarsen_columns_amended ["x".toList] ["host".toList, "timestamp".toList]
      (by decide) (by decide)⟩

/-- C10 witness: on columns `["plain", "x.count"]` the result is
duplicate-free and contains the empty string contributed by `"plain"`. -/
theorem C10_dedup_and_dotless_witness :
    (get_vars_from_flat_cols ["plain".toList, "x.count".toList] []).Nodup ∧
    ("plain".toList ∈ (["plain".toList, "x.count".toList] : List PyStr) →
      "plain".toList ∉ ([] : List PyStr) → '.' ∉ "plain".toList →
      ([] : PyStr) ∈ get_vars_from_flat_cols ["plain".toList, "x.count".toList] []) :=
  ⟨(C10_dedup_and_dotless ["plain".toList, "x.count".toList] []).1,
    fun h1 h2 h3 => (C10_dedup_and_dotless ["plain".toList, "x.count".toList] []).2
      "plain".toList h1 h2 h3⟩

end Gears
